import Mathlib

/-!
Shallow embedding of the Forex publish-subscribe arbitrage detector
(`bellman_ford.py`, `subscriber.py`).

Python dictionaries are modelled as association lists in insertion order:
assignment to a fresh key appends at the end, assignment to an existing key
replaces the value of its first (for a dict: unique) occurrence in place,
iteration walks the list in order.  Floats are modelled as exact rationals;
the IEEE value `float('inf')` used by Bellman-Ford is modelled by `none` in
`Option ℚ` with the addition/comparison rules of non-NaN floats.  Fallible
operations (`KeyError`, `IndexError`) return `Option`/`Except`.
-/

namespace Forex

/-- `d.get k` / `d[k]` read on a Python dict: value of the first entry whose
key matches (unique for genuine dicts), `none` for a `KeyError`. -/
def alookup {K V : Type} [DecidableEq K] : List (K × V) → K → Option V
  | [], _ => none
  | (k', v) :: rest, k => if k' = k then some v else alookup rest k

/-- Replace the value of the first entry holding key `k` (no-op if `k` is
absent). -/
def modifyA {K V : Type} [DecidableEq K] : List (K × V) → K → (V → V) → List (K × V)
  | [], _, _ => []
  | (k', v) :: rest, k, f =>
    if k' = k then (k', f v) :: rest else (k', v) :: modifyA rest k f

/-- `d[k] = v` on a Python dict: overwrite in place if the key exists,
append a fresh entry otherwise. -/
def aupdate {K V : Type} [DecidableEq K] (m : List (K × V)) (k : K) (v : V) : List (K × V) :=
  if (alookup m k).isSome then modifyA m k (fun _ => v) else m ++ [(k, v)]

/-- `del d[k]` on a Python dict: drop the first entry holding key `k`,
`none` for a `KeyError` when the key is absent. -/
def aerase {K V : Type} [DecidableEq K] : List (K × V) → K → Option (List (K × V))
  | [], _ => none
  | (k', v) :: rest, k =>
    if k' = k then some rest else (aerase rest k).map ((k', v) :: ·)

abbrev Vertex := String

/-- Inner adjacency dict of `BellmanFordGraph`: target vertex ↦ (weight, timestamp). -/
abbrev Adj := List (Vertex × (ℚ × ℚ))

/-- `BellmanFordGraph.graph`: vertex ↦ adjacency dict. -/
abbrev Graph := List (Vertex × Adj)

/-- Well-formedness every Python dict enjoys: keys are pairwise distinct,
in the outer map and in each adjacency map. -/
def WFGraph (g : Graph) : Prop :=
  (g.map Prod.fst).Nodup ∧ ∀ e ∈ g, (e.2.map Prod.fst).Nodup

instance : DecidablePred WFGraph := fun g => by
  unfold WFGraph; infer_instance

/-- `BellmanFordGraph.add_edge`: ensure both endpoints exist as outer keys
(appending empty adjacency dicts), then set `graph[from][to] = (weight, time)`. -/
def addEdge (g : Graph) (fromV toV : Vertex) (weight time : ℚ) : Graph :=
  let g1 := if (alookup g fromV).isSome then g else g ++ [(fromV, [])]
  let g2 := if (alookup g1 toV).isSome then g1 else g1 ++ [(toV, [])]
  modifyA g2 fromV (fun adj => aupdate adj toV (weight, time))

/-- `BellmanFordGraph.remove_edge`: `del graph[from][to]`; a missing outer
key or missing inner key raises `KeyError`, modelled as `Except.error`. -/
def removeEdge (g : Graph) (fromV toV : Vertex) : Except Unit Graph :=
  match alookup g fromV with
  | none => .error ()
  | some adj =>
    match aerase adj toV with
    | none => .error ()
    | some adj' => .ok (modifyA g fromV (fun _ => adj'))

/-- The raw stored pair `graph[from][to]` (weight, timestamp); `none` models
a `KeyError`. -/
def edgeData (g : Graph) (fromV toV : Vertex) : Option (ℚ × ℚ) :=
  (alookup g fromV).bind (fun adj => alookup adj toV)

/-- `BellmanFordGraph.get_edge_weight`: `graph[from][to][WEIGHT_IDX]`. -/
def getEdgeWeight (g : Graph) (fromV toV : Vertex) : Option ℚ :=
  (edgeData g fromV toV).map Prod.fst

/-- `BellmanFordGraph.has_edge`: `False` when either endpoint is not an outer
key, otherwise membership of `to` in `graph[from]`. -/
def hasEdge (g : Graph) (fromV toV : Vertex) : Bool :=
  if (alookup g fromV).isNone || (alookup g toV).isNone then false
  else (alookup ((alookup g fromV).getD []) toV).isSome

/-! ### Bellman-Ford engine (`BellmanFordGraph.shortest_paths`)

Distances are IEEE floats in the source, starting from `float('inf')`;
`none` models infinity, `some q` a finite value.  Addition and `<` below
are exactly the float rules on the values reachable here (no NaN, no
negative infinity). -/

/-- Float addition with `inf`: `inf + w = inf`. -/
def dAdd (a : Option ℚ) (b : ℚ) : Option ℚ :=
  match a with
  | none => none
  | some q => some (q + b)

/-- Float `<` with `inf`: `inf < x` is false, `x < inf` is true for finite `x`. -/
def dLt (a b : Option ℚ) : Bool :=
  match a, b with
  | none, _ => false
  | some _, none => true
  | some x, some y => x < y

/-- `BellmanFordGraph.can_relax`: `relaxed_dist + tolerance < orig_dist`. -/
def can_relax (relaxedDist origDist : Option ℚ) (tolerance : ℚ) : Bool :=
  dLt (dAdd relaxedDist tolerance) origDist

/-- The `distance` / `predecessor` dictionaries of `shortest_paths`.
They are modelled as total functions; the source only ever reads them at
vertices of the graph, where they are initialized. -/
structure BFState where
  dist : Vertex → Option ℚ
  pred : Vertex → Option Vertex

/-- `distance[v] = inf` for every vertex, `predecessor[v] = None`, then
`distance[start_vertex] = 0`. -/
def initState (start : Vertex) : BFState :=
  ⟨fun v => if v = start then some 0 else none, fun _ => none⟩

/-- One edge-relaxation step of the inner loop of `shortest_paths`: relax
`(u, v, w)` exactly when `can_relax(distance[u] + w, distance[v], tolerance)`. -/
def relaxEdge (tol : ℚ) (st : BFState) (u v : Vertex) (w : ℚ) : BFState :=
  let relaxedDist := dAdd (st.dist u) w
  if can_relax relaxedDist (st.dist v) tol then
    ⟨fun x => if x = v then relaxedDist else st.dist x,
     fun x => if x = v then some u else st.pred x⟩
  else st

/-- One full pass over every directed edge, in dict iteration order. -/
def relaxPass (tol : ℚ) (g : Graph) (st : BFState) : BFState :=
  g.foldl (fun st1 ua => ua.2.foldl (fun st2 vw => relaxEdge tol st2 ua.1 vw.1 vw.2.1) st1) st

/-- `for i in range(len(self.graph) - 1)`: iterate `relaxPass`. -/
def relaxPasses (tol : ℚ) (g : Graph) : Nat → BFState → BFState
  | 0, st => st
  | n + 1, st => relaxPasses tol g n (relaxPass tol g st)

/-- The final detection scan over one adjacency dict: first target `v` whose
edge still satisfies the relaxation test. -/
def findNegAdj (tol : ℚ) (st : BFState) (u : Vertex) : Adj → Option (Vertex × Vertex)
  | [] => none
  | (v, wt) :: rest =>
    if can_relax (dAdd (st.dist u) wt.1) (st.dist v) tol then some (u, v)
    else findNegAdj tol st u rest

/-- The final detection scan of `shortest_paths`: first edge `(u, v)` in
iteration order that still satisfies the relaxation test. -/
def findNegEdge (tol : ℚ) (st : BFState) : Graph → Option (Vertex × Vertex)
  | [] => none
  | (u, adj) :: rest =>
    match findNegAdj tol st u adj with
    | some e => some e
    | none => findNegEdge tol st rest

/-- `BellmanFordGraph.shortest_paths`: `|V| - 1` relaxation passes from the
initial state, then the negative-cycle detection scan. -/
def shortest_paths (g : Graph) (start : Vertex) (tol : ℚ) :
    BFState × Option (Vertex × Vertex) :=
  let st := relaxPasses tol g (g.length - 1) (initState start)
  (st, findNegEdge tol st g)

/-- All directed edges `(u, v, w)` of the graph in iteration order. -/
def edgeList (g : Graph) : List (Vertex × Vertex × ℚ) :=
  g.flatMap (fun ua => ua.2.map (fun vw => (ua.1, vw.1, vw.2.1)))

/-! ### Staleness eviction (`remove_stale_edges`, `remove_duplicates`) -/

/-- Entries of `remove_list`: `((u, v), time_diff)`. -/
abbrev StaleEntry := (Vertex × Vertex) × ℚ

/-- The reverse edge with the same age, as tested by `remove_duplicates`. -/
def revEntry (e : StaleEntry) : StaleEntry := ((e.1.2, e.1.1), e.2)

/-- Python `list.remove(e)`: drop the first occurrence equal to `e`. -/
def eraseFirst {A : Type} [DecidableEq A] : List A → A → List A
  | [], _ => []
  | x :: rest, e => if x = e then rest else x :: eraseFirst rest e

theorem eraseFirst_length_of_mem {A : Type} [DecidableEq A] {l : List A} {a : A}
    (h : a ∈ l) : (eraseFirst l a).length = l.length - 1 := by
  induction l with
  | nil => cases h
  | cons x rest ih =>
    simp only [eraseFirst]
    by_cases hx : x = a
    · simp [hx]
    · have hmem : a ∈ rest := by
        rcases List.mem_cons.mp h with h1 | h1
        · exact absurd h1.symm hx
        · exact h1
      have hlen : 0 < rest.length := List.length_pos.mpr (List.ne_nil_of_mem hmem)
      rw [if_neg hx]
      simp only [List.length_cons, ih hmem]
      omega

/-- The loop of `remove_duplicates` on CPython semantics: `for elem in lst`
iterates by index; removing the current element shifts the tail left so the
following element is skipped.  `i` is the iterator's next index. -/
def removeDupGo (l : List StaleEntry) (i : Nat) : List StaleEntry :=
  if h : i < l.length then
    let elem := l.get ⟨i, h⟩
    if revEntry elem ∈ l then removeDupGo (eraseFirst l elem) (i + 1)
    else removeDupGo l (i + 1)
  else l
termination_by l.length - i
decreasing_by
  · have : (eraseFirst l (l.get ⟨i, h⟩)).length = l.length - 1 :=
      eraseFirst_length_of_mem (l.get_mem i h)
    omega
  · omega

/-- `BellmanFordGraph.remove_duplicates`: mutate `remove_list` in place,
dropping an entry when its reversed pair with the identical age is present. -/
def remove_duplicates (removeList : List StaleEntry) : List StaleEntry :=
  removeDupGo removeList 0

/-- The `remove_list` built by the scan of `remove_stale_edges`: every edge
`(u, v)` whose age `time_to_compare - timestamp` strictly exceeds
`time_limit`, in iteration order. -/
def staleList (g : Graph) (timeToCompare timeLimit : ℚ) : List StaleEntry :=
  g.flatMap (fun ua =>
    (ua.2.filter (fun vw => timeToCompare - vw.2.2 > timeLimit)).map
      (fun vw => ((ua.1, vw.1), timeToCompare - vw.2.2)))

/-- `BellmanFordGraph.remove_stale_edges`: build `remove_list`, remove every
listed edge (`remove_edge` may raise), deduplicate the report, return it. -/
def remove_stale_edges (g : Graph) (timeToCompare timeLimit : ℚ) :
    Except Unit (Graph × List StaleEntry) :=
  let removeList := staleList g timeToCompare timeLimit
  match removeList.foldlM (fun gg e => removeEdge gg e.1.1 e.1.2) g with
  | .error e => .error e
  | .ok g' => .ok (g', remove_duplicates removeList)

/-! ### Subscriber (`subscriber.py`)

`math.log10` is transcendental and has no exact rational embedding; the
functions below take the `log10` operation as an explicit parameter.  The
claims settled here do not depend on its values. -/

/-- `IN_FORCE_TIME = 1.5` seconds. -/
def IN_FORCE_TIME : ℚ := 3 / 2

/-- `TOLERANCE = 1e-6`. -/
def TOLERANCE : ℚ := 1 / 1000000

/-- `math.isclose(a, b)` with the default `rel_tol=1e-9`, `abs_tol=0.0`:
`abs(a-b) <= max(rel_tol * max(abs(a), abs(b)), abs_tol)`. -/
def isclose (a b : ℚ) : Bool := |a - b| ≤ 1 / 1000000000 * max |a| |b|

/-- The keys of `market_times`: the currency pair as ordered in the quote. -/
abbrev MarketKey := Vertex × Vertex

/-- The subscriber state touched by quote processing: the currency graph and
the `market_times` dict. -/
structure SubState where
  graph : Graph
  marketTimes : List (MarketKey × ℚ)
deriving DecidableEq

/-- A decoded Forex quote as consumed by `process_quote` (the byte decoder is
an external collaborator): timestamp, the two currencies of `cross`, price. -/
structure Quote where
  timestamp : ℚ
  cross1 : Vertex
  cross2 : Vertex
  price : ℚ

/-- `Subscriber.add_exchange_rates`: insert the negative log rate forward and
its negation backward, both at the quote timestamp. -/
def add_exchange_rates (log10 : ℚ → ℚ) (g : Graph) (c1 c2 : Vertex) (rate time : ℚ) : Graph :=
  let negLogRate := -1 * log10 rate
  addEdge (addEdge g c1 c2 negLogRate time) c2 c1 (-1 * negLogRate) time

/-- The per-quote body of the loop in `Subscriber.process_quote`: apply the
quote when its timestamp `isclose`-matches the receive time, otherwise ignore
it ("out of sequence"). -/
def applyQuote (log10 : ℚ → ℚ) (startTime : ℚ) (s : SubState) (q : Quote) : SubState :=
  if isclose startTime q.timestamp then
    { marketTimes := aupdate s.marketTimes (q.cross1, q.cross2) q.timestamp,
      graph := add_exchange_rates log10 s.graph q.cross1 q.cross2 q.price q.timestamp }
  else s

/-- The quote loop of `Subscriber.process_quote` (its state mutations; the
subsequent `shortest_paths` query and reporting do not touch the state). -/
def processQuotes (log10 : ℚ → ℚ) (startTime : ℚ) (s : SubState) (quotes : List Quote) : SubState :=
  quotes.foldl (applyQuote log10 startTime) s

/-- The scan loop of `Subscriber.remove_stale_quotes`: walk `market_times`,
remove both directed edges of every stale pair (either `remove_edge` may
raise `KeyError`), and collect the removed pairs in order. -/
def staleQuotesFold (now : ℚ) : List (MarketKey × ℚ) → Graph → Except Unit (Graph × List MarketKey)
  | [], g => .ok (g, [])
  | e :: rest, g =>
    if now - e.2 > IN_FORCE_TIME then
      match removeEdge g e.1.1 e.1.2 with
      | .error _ => .error ()
      | .ok g1 =>
        match removeEdge g1 e.1.2 e.1.1 with
        | .error _ => .error ()
        | .ok g2 =>
          match staleQuotesFold now rest g2 with
          | .error _ => .error ()
          | .ok (g', ks) => .ok (g', e.1 :: ks)
    else staleQuotesFold now rest g

/-- `for market in remove_list: del self.market_times[market]`. -/
def delKeys {K V : Type} [DecidableEq K] : List (K × V) → List K → Option (List (K × V))
  | m, [] => some m
  | m, k :: ks => (aerase m k).bind (fun m' => delKeys m' ks)

/-- `Subscriber.remove_stale_quotes`, with the wall-clock reading
`datetime.now().timestamp()` passed in as `now`. -/
def remove_stale_quotes (now : ℚ) (s : SubState) : Except Unit (SubState × List MarketKey) :=
  match staleQuotesFold now s.marketTimes s.graph with
  | .error _ => .error ()
  | .ok (g', removed) =>
    match delKeys s.marketTimes removed with
    | none => .error ()
    | some mt' => .ok ({ graph := g', marketTimes := mt' }, removed)

/-! ### Arbitrage reconstruction (`Subscriber.build_arbitrage_sequence`)

Python values flowing through the walk are either a vertex or `None`
(a predecessor entry can be `None`), modelled as `Option Vertex`.  The
accumulated `conversions` list is kept in reversed (most-recent-first)
order, so Python's final `conversions.reverse()` makes the internal list
itself the returned value.  The outer `while` loop need not terminate
structurally, so it carries fuel; `crash` models a raised `KeyError` /
`IndexError`, `fuelOut` fuel exhaustion. -/

inductive BResult where
  | ok (conversions : List (Option Vertex))
  | crash
  | fuelOut
deriving DecidableEq

/-- `has_edge(start, currency)` where `currency` may be Python `None`
(never a graph key, so the lookup is `False`). -/
def hasEdgeO (g : Graph) (start : Vertex) : Option Vertex → Bool
  | some c => hasEdge g start c
  | none => false

/-- `pred[currency]` where `currency` may be Python `None` (never a key of
the predecessor dict, hence a `KeyError`). -/
def lookupPred (pred : List (Vertex × Option Vertex)) : Option Vertex → Option (Option Vertex)
  | none => none
  | some c => alookup pred c

/-- The inner `while not self.graph.has_edge(...)` fallback loop: pop the
last accumulated currency and retry from the new last element; popping the
list empty raises `IndexError` (`none`). -/
def popUntilL (g : Graph) (start : Vertex) : List (Option Vertex) → Option Vertex →
    Option (List (Option Vertex))
  | [], currency => if hasEdgeO g start currency then some [] else none
  | x :: rest, currency =>
    if hasEdgeO g start currency then some (x :: rest)
    else
      match rest with
      | [] => none
      | c :: _ => popUntilL g start rest c

/-- The inner fallback loop with the source's argument order: check the edge
first (loop guard), else pop the last accumulated element (the head of the
reversed list) and continue from the new last element; popping the list down
to nothing raises `IndexError` (`none`). -/
def popUntil (g : Graph) (start : Vertex) (currency : Option Vertex)
    (revList : List (Option Vertex)) : Option (List (Option Vertex)) :=
  popUntilL g start revList currency

/-- The outer `while start_currency != currency` loop of
`build_arbitrage_sequence`; `revList` is `conversions` reversed, and
`currency` is always its head. -/
def buildWalk (g : Graph) (pred : List (Vertex × Option Vertex)) (start : Vertex) :
    Nat → Option Vertex → List (Option Vertex) → BResult
  | 0, _, _ => .fuelOut
  | fuel + 1, currency, revList =>
    if currency = some start then .ok revList
    else
      match lookupPred pred currency with
      | none => .crash
      | some p =>
        if p ∈ revList then
          match popUntil g start currency revList with
          | none => .crash
          | some popped => .ok (some start :: popped)
        else buildWalk g pred start fuel p (p :: revList)

/-- `Subscriber.build_arbitrage_sequence`: start the walk at
`pred[start_currency]` (`KeyError` if absent) with `conversions` holding
that single element; the result is already in post-`reverse()` order. -/
def build_arbitrage_sequence (fuel : Nat) (g : Graph)
    (pred : List (Vertex × Option Vertex)) (start : Vertex) : BResult :=
  match alookup pred start with
  | none => .crash
  | some c => buildWalk g pred start fuel c [c]

/-! ### Dictionary lemmas -/

theorem alookup_append {K V : Type} [DecidableEq K] (m1 m2 : List (K × V)) (k : K) :
    alookup (m1 ++ m2) k =
      match alookup m1 k with
      | some v => some v
      | none => alookup m2 k := by
  induction m1 with
  | nil => simp [alookup]
  | cons e rest ih =>
    by_cases hk : e.1 = k <;> simp [alookup, hk, ih]

theorem alookup_modifyA_self {K V : Type} [DecidableEq K] (m : List (K × V)) (k : K)
    (f : V → V) : alookup (modifyA m k f) k = (alookup m k).map f := by
  induction m with
  | nil => simp [alookup, modifyA]
  | cons e rest ih =>
    by_cases hk : e.1 = k <;> simp [alookup, modifyA, hk, ih]

theorem alookup_modifyA_ne {K V : Type} [DecidableEq K] (m : List (K × V)) (k k' : K)
    (f : V → V) (h : k' ≠ k) : alookup (modifyA m k f) k' = alookup m k' := by
  induction m with
  | nil => simp [modifyA]
  | cons e rest ih =>
    by_cases hk : e.1 = k
    · subst hk
      simp [alookup, modifyA, Ne.symm h]
    · by_cases hk' : e.1 = k' <;> simp [alookup, modifyA, hk, hk', ih, h]

theorem alookup_aupdate_self {K V : Type} [DecidableEq K] (m : List (K × V)) (k : K)
    (v : V) : alookup (aupdate m k v) k = some v := by
  unfold aupdate
  by_cases h : (alookup m k).isSome
  · rw [if_pos h, alookup_modifyA_self]
    rcases Option.isSome_iff_exists.mp h with ⟨w, hw⟩
    simp [hw]
  · rw [if_neg h, alookup_append]
    simp only [Option.not_isSome_iff_eq_none] at h
    simp [h, alookup]

theorem alookup_aupdate_ne {K V : Type} [DecidableEq K] (m : List (K × V)) (k k' : K)
    (v : V) (h : k' ≠ k) : alookup (aupdate m k v) k' = alookup m k' := by
  unfold aupdate
  by_cases hs : (alookup m k).isSome
  · rw [if_pos hs, alookup_modifyA_ne _ _ _ _ h]
  · rw [if_neg hs, alookup_append]
    cases hl : alookup m k' with
    | some w => rfl
    | none => simp [alookup, Ne.symm h]

theorem keys_modifyA {K V : Type} [DecidableEq K] (m : List (K × V)) (k : K) (f : V → V) :
    (modifyA m k f).map Prod.fst = m.map Prod.fst := by
  induction m with
  | nil => rfl
  | cons e rest ih =>
    by_cases hk : e.1 = k <;> simp [modifyA, hk, ih]

theorem alookup_eq_none_iff {K V : Type} [DecidableEq K] (m : List (K × V)) (k : K) :
    alookup m k = none ↔ k ∉ m.map Prod.fst := by
  induction m with
  | nil => simp [alookup]
  | cons e rest ih =>
    simp only [alookup, List.map_cons, List.mem_cons]
    by_cases hk : e.1 = k
    · simp [hk]
    · rw [if_neg hk, ih]
      constructor
      · intro hn hc
        rcases hc with hc | hc
        · exact hk hc.symm
        · exact hn hc
      · intro hn hc
        exact hn (Or.inr hc)

theorem mem_modifyA {K V : Type} [DecidableEq K] {m : List (K × V)} {k : K} {f : V → V}
    {e : K × V} (h : e ∈ modifyA m k f) : e ∈ m ∨ ∃ v', (k, v') ∈ m ∧ e = (k, f v') := by
  induction m with
  | nil => simp [modifyA] at h
  | cons e0 rest ih =>
    by_cases hk : e0.1 = k
    · rw [modifyA, if_pos hk] at h
      rcases List.mem_cons.mp h with h1 | h1
      · right
        exact ⟨e0.2, by simp [← hk, h1]⟩
      · left
        exact List.mem_cons_of_mem _ h1
    · rw [modifyA, if_neg hk] at h
      rcases List.mem_cons.mp h with h1 | h1
      · left
        simp [h1]
      · rcases ih h1 with h2 | ⟨v', hv1, hv2⟩
        · left
          exact List.mem_cons_of_mem _ h2
        · right
          exact ⟨v', List.mem_cons_of_mem _ hv1, hv2⟩

theorem nodupKeys_aupdate {K V : Type} [DecidableEq K] (m : List (K × V)) (k : K) (v : V)
    (h : (m.map Prod.fst).Nodup) : ((aupdate m k v).map Prod.fst).Nodup := by
  unfold aupdate
  by_cases hs : (alookup m k).isSome
  · rw [if_pos hs, keys_modifyA]
    exact h
  · rw [if_neg hs]
    simp only [Option.not_isSome_iff_eq_none] at hs
    have hk : k ∉ m.map Prod.fst := (alookup_eq_none_iff m k).mp hs
    simp only [List.map_append, List.map_cons, List.map_nil]
    exact List.Nodup.append h (List.nodup_singleton k) (by
      intro a ha hb
      simp at hb
      subst hb
      exact hk ha)

/-! ### Graph Store theorems -/

theorem alookup_addEdge_from_isSome (g : Graph) (u v : Vertex) (w t : ℚ) :
    ∃ adj0, alookup (addEdge g u v w t) u = some (aupdate adj0 v (w, t)) := by
  unfold addEdge
  set g1 := if (alookup g u).isSome then g else g ++ [(u, [])] with hg1
  set g2 := if (alookup g1 v).isSome then g1 else g1 ++ [(v, [])] with hg2
  have h1 : (alookup g1 u).isSome := by
    rw [hg1]
    by_cases h : (alookup g u).isSome
    · simp [h]
    · rw [if_neg h, alookup_append]
      simp only [Option.not_isSome_iff_eq_none] at h
      simp [h, alookup]
  have h2 : (alookup g2 u).isSome := by
    rw [hg2]
    by_cases h : (alookup g1 v).isSome
    · simpa [h] using h1
    · rw [if_neg h, alookup_append]
      rcases Option.isSome_iff_exists.mp h1 with ⟨adj, hadj⟩
      simp [hadj]
  rcases Option.isSome_iff_exists.mp h2 with ⟨adj0, hadj0⟩
  refine ⟨adj0, ?_⟩
  rw [alookup_modifyA_self, hadj0]
  rfl

/-- C10 (part): round-trip and overwrite on the stored edge data. -/
theorem edgeData_addEdge_self (g : Graph) (u v : Vertex) (w t : ℚ) :
    edgeData (addEdge g u v w t) u v = some (w, t) := by
  rcases alookup_addEdge_from_isSome g u v w t with ⟨adj0, hadj0⟩
  rw [edgeData, hadj0]
  simp [alookup_aupdate_self]

theorem wf_append_fresh {g : Graph} {x : Vertex} (h : WFGraph g)
    (hx : alookup g x = none) : WFGraph (g ++ [(x, [])]) := by
  constructor
  · simp only [List.map_append, List.map_cons, List.map_nil]
    refine List.Nodup.append h.1 (List.nodup_singleton x) ?_
    intro a ha hb
    simp only [List.mem_singleton] at hb
    exact (alookup_eq_none_iff g x).mp hx (hb ▸ ha)
  · intro e he
    rcases List.mem_append.mp he with he | he
    · exact h.2 e he
    · simp only [List.mem_singleton] at he
      subst he
      simp

theorem wf_addEdge {g : Graph} (u v : Vertex) (w t : ℚ) (h : WFGraph g) :
    WFGraph (addEdge g u v w t) := by
  unfold addEdge
  set g1 := if (alookup g u).isSome then g else g ++ [(u, [])] with hg1
  set g2 := if (alookup g1 v).isSome then g1 else g1 ++ [(v, [])] with hg2
  have hw1 : WFGraph g1 := by
    rw [hg1]
    by_cases hc : (alookup g u).isSome
    · rw [if_pos hc]
      exact h
    · rw [if_neg hc]
      exact wf_append_fresh h (Option.not_isSome_iff_eq_none.mp hc)
  have hw2 : WFGraph g2 := by
    rw [hg2]
    by_cases hc : (alookup g1 v).isSome
    · rw [if_pos hc]
      exact hw1
    · rw [if_neg hc]
      exact wf_append_fresh hw1 (Option.not_isSome_iff_eq_none.mp hc)
  constructor
  · rw [keys_modifyA]
    exact hw2.1
  · intro e he
    rcases mem_modifyA he with he | ⟨adj0, hadj0, rfl⟩
    · exact hw2.2 e he
    · exact nodupKeys_aupdate adj0 v (w, t) (hw2.2 _ hadj0)

/-- C10: `addEdge(from, to, w, t)` followed by `getEdgeWeight(from, to)`
returns `w`; the stored data is exactly `(w, t)`; a second `addEdge` on the
same ordered pair overwrites weight and timestamp; and well-formedness
(at most one entry per key, hence at most one edge per ordered pair) is
preserved. -/
theorem C10_addEdge_roundtrip_overwrite (g : Graph) (u v : Vertex) (w t w' t' : ℚ) :
    getEdgeWeight (addEdge g u v w t) u v = some w ∧
    edgeData (addEdge g u v w t) u v = some (w, t) ∧
    edgeData (addEdge (addEdge g u v w t) u v w' t') u v = some (w', t') ∧
    (WFGraph g → WFGraph (addEdge g u v w t)) :=
  ⟨by rw [getEdgeWeight, edgeData_addEdge_self]; rfl, edgeData_addEdge_self g u v w t,
   edgeData_addEdge_self _ u v w' t', fun h => wf_addEdge u v w t h⟩

/-- Witness for C10 at a concrete input. -/
theorem C10_addEdge_roundtrip_overwrite_witness :
    WFGraph ([] : Graph) ∧
      (getEdgeWeight (addEdge [] "USD" "EUR" 1 0) "USD" "EUR" = some 1 ∧
        WFGraph (addEdge [] "USD" "EUR" 1 0)) :=
  ⟨by decide,
   (C10_addEdge_roundtrip_overwrite [] "USD" "EUR" 1 0 2 3).1,
   (C10_addEdge_roundtrip_overwrite [] "USD" "EUR" 1 0 2 3).2.2.2 (by decide)⟩

/-! ### Relaxation condition (C3) -/

theorem relaxPass_eq_foldl_edgeList (tol : ℚ) (g : Graph) (st : BFState) :
    relaxPass tol g st =
      (edgeList g).foldl (fun s e => relaxEdge tol s e.1 e.2.1 e.2.2) st := by
  induction g generalizing st with
  | nil => rfl
  | cons ua rest ih =>
    rw [relaxPass, edgeList] at *
    simp only [List.foldl_cons, List.flatMap_cons, List.foldl_append, List.foldl_map]
    rw [← ih]
    rfl

/-- C3: inside a relaxation pass every directed edge `(u, v, w)` is handled
by one `relaxEdge` step, and that step updates `distance[v]` to
`distance[u] + w` and `predecessor[v]` to `u` exactly when
`distance[u] + w + tolerance < distance[v]` — the comparison being literally
`candidate + tolerance < current` (`can_relax`) — and leaves every other
vertex, and the whole state when the test fails, unchanged. -/
theorem C3_relaxation_exact_condition (tol : ℚ) (g : Graph) (st : BFState)
    (u v : Vertex) (w : ℚ) :
    (relaxPass tol g st =
        (edgeList g).foldl (fun s e => relaxEdge tol s e.1 e.2.1 e.2.2) st) ∧
    ((relaxEdge tol st u v w).dist v =
        if can_relax (dAdd (st.dist u) w) (st.dist v) tol then dAdd (st.dist u) w
        else st.dist v) ∧
    ((relaxEdge tol st u v w).pred v =
        if can_relax (dAdd (st.dist u) w) (st.dist v) tol then some u
        else st.pred v) ∧
    (can_relax (dAdd (st.dist u) w) (st.dist v) tol = false →
        relaxEdge tol st u v w = st) ∧
    (∀ x, x ≠ v → (relaxEdge tol st u v w).dist x = st.dist x ∧
        (relaxEdge tol st u v w).pred x = st.pred x) ∧
    (∀ c d : ℚ, can_relax (some c) (some d) tol = decide (c + tol < d)) := by
  refine ⟨relaxPass_eq_foldl_edgeList tol g st, ?_, ?_, ?_, ?_, ?_⟩
  · by_cases h : can_relax (dAdd (st.dist u) w) (st.dist v) tol <;>
      simp [relaxEdge, h]
  · by_cases h : can_relax (dAdd (st.dist u) w) (st.dist v) tol <;>
      simp [relaxEdge, h]
  · intro h
    simp [relaxEdge, h]
  · intro x hx
    by_cases h : can_relax (dAdd (st.dist u) w) (st.dist v) tol <;>
      simp [relaxEdge, h, hx]
  · intro c d
    rfl

/-- Witness for C3 at a concrete input: an unreachable edge is not relaxed
and an unrelated vertex is untouched. -/
theorem C3_relaxation_exact_condition_witness :
    (can_relax (dAdd ((initState "USD").dist "A") 1) ((initState "USD").dist "B") 0 = false ∧
      ("C" : Vertex) ≠ "B") ∧
    relaxEdge 0 (initState "USD") "A" "B" 1 = initState "USD" ∧
    (relaxEdge 0 (initState "USD") "A" "B" 1).dist "C" = (initState "USD").dist "C" :=
  ⟨⟨by decide, by decide⟩,
   (C3_relaxation_exact_condition 0 [] (initState "USD") "A" "B" 1).2.2.2.1 (by decide),
   ((C3_relaxation_exact_condition 0 [] (initState "USD") "A" "B" 1).2.2.2.2.1 "C"
     (by decide)).1⟩

/-! ### Negative-cycle detection scan (C4) -/

theorem findNegAdj_eq_find (tol : ℚ) (st : BFState) (u : Vertex) (adj : Adj) :
    findNegAdj tol st u adj =
      ((adj.map (fun vw => (u, vw.1, vw.2.1))).find? (fun e =>
          can_relax (dAdd (st.dist e.1) e.2.2) (st.dist e.2.1) tol)).map
        (fun e => (e.1, e.2.1)) := by
  induction adj with
  | nil => rfl
  | cons vw rest ih =>
    rw [findNegAdj]
    simp only [List.map_cons, List.find?_cons]
    by_cases h : can_relax (dAdd (st.dist u) vw.2.1) (st.dist vw.1) tol <;>
      simp [h, ih]

theorem findNegEdge_eq_find (tol : ℚ) (st : BFState) (g : Graph) :
    findNegEdge tol st g =
      ((edgeList g).find? (fun e =>
          can_relax (dAdd (st.dist e.1) e.2.2) (st.dist e.2.1) tol)).map
        (fun e => (e.1, e.2.1)) := by
  induction g with
  | nil => rfl
  | cons ua rest ih =>
    rw [findNegEdge, edgeList, List.flatMap_cons, List.find?_append, findNegAdj_eq_find]
    cases hf : (ua.2.map (fun vw => (ua.1, vw.1, vw.2.1))).find? (fun e =>
        can_relax (dAdd (st.dist e.1) e.2.2) (st.dist e.2.1) tol) with
    | none =>
      rw [Option.none_or]
      simpa [edgeList] using ih
    | some e => rfl

/-- C4: after the `|V| - 1` relaxation passes, `shortest_paths` reports no
witness exactly when no directed edge still satisfies the relaxation test
against the post-pass distances; otherwise the witness is the first edge in
iteration order that does. -/
theorem C4_first_negative_edge_or_none (g : Graph) (start : Vertex) (tol : ℚ) :
    ((shortest_paths g start tol).2 = none ↔
      ∀ e ∈ edgeList g,
        can_relax (dAdd ((shortest_paths g start tol).1.dist e.1) e.2.2)
          ((shortest_paths g start tol).1.dist e.2.1) tol = false) ∧
    (shortest_paths g start tol).2 =
      ((edgeList g).find? (fun e =>
          can_relax (dAdd ((shortest_paths g start tol).1.dist e.1) e.2.2)
            ((shortest_paths g start tol).1.dist e.2.1) tol)).map
        (fun e => (e.1, e.2.1)) := by
  have h2 : (shortest_paths g start tol).2 =
      ((edgeList g).find? (fun e =>
          can_relax (dAdd ((shortest_paths g start tol).1.dist e.1) e.2.2)
            ((shortest_paths g start tol).1.dist e.2.1) tol)).map
        (fun e => (e.1, e.2.1)) := by
    rw [shortest_paths]
    exact findNegEdge_eq_find tol _ g
  refine ⟨?_, h2⟩
  rw [h2]
  simp only [Option.map_eq_none', List.find?_eq_none]
  constructor
  · intro h e he
    simpa using h e he
  · intro h e he
    simpa using h e he

/-- Witness for C4: the scan characterization applied at a concrete
two-vertex negative cycle, where the first scanned edge is reported. -/
theorem C4_first_negative_edge_or_none_witness :
    (shortest_paths (addEdge (addEdge [] "A" "B" (-1) 0) "B" "A" (-1) 0) "A" 0).2 =
      some ("A", "B") := by
  have h := (C4_first_negative_edge_or_none
    (addEdge (addEdge [] "A" "B" (-1) 0) "B" "A" (-1) 0) "A" 0).2
  rw [h]
  simp [shortest_paths, relaxPasses, relaxPass, relaxEdge, can_relax, dAdd, dLt, initState,
    addEdge, alookup, aupdate, modifyA, edgeList]

/-! ### Eviction lemmas (C9, C5) -/

theorem aerase_isSome {K V : Type} [DecidableEq K] (m : List (K × V)) (k : K) :
    (aerase m k).isSome = (alookup m k).isSome := by
  induction m with
  | nil => rfl
  | cons e rest ih =>
    by_cases hk : e.1 = k <;> simp [aerase, alookup, hk, ih]

theorem aerase_sublist {K V : Type} [DecidableEq K] {m m' : List (K × V)} {k : K}
    (h : aerase m k = some m') : m'.Sublist m := by
  induction m generalizing m' with
  | nil => simp [aerase] at h
  | cons e rest ih =>
    by_cases hk : e.1 = k
    · rw [aerase, if_pos hk] at h
      cases h
      exact List.sublist_cons_self e rest
    · rw [aerase, if_neg hk] at h
      cases hr : aerase rest k with
      | none => simp [hr] at h
      | some r =>
        rw [hr] at h
        simp only [Option.map_some'] at h
        cases h
        exact List.Sublist.cons₂ e (ih hr)

theorem alookup_aerase_self {K V : Type} [DecidableEq K] {m m' : List (K × V)} {k : K}
    (hnd : (m.map Prod.fst).Nodup) (h : aerase m k = some m') : alookup m' k = none := by
  induction m generalizing m' with
  | nil => simp [aerase] at h
  | cons e rest ih =>
    simp only [List.map_cons, List.nodup_cons] at hnd
    by_cases hk : e.1 = k
    · rw [aerase, if_pos hk] at h
      cases h
      rw [alookup_eq_none_iff]
      rw [hk] at hnd
      exact hnd.1
    · rw [aerase, if_neg hk] at h
      cases hr : aerase rest k with
      | none => simp [hr] at h
      | some r =>
        rw [hr] at h
        simp only [Option.map_some'] at h
        cases h
        rw [alookup, if_neg hk]
        exact ih hnd.2 hr

theorem alookup_aerase_ne {K V : Type} [DecidableEq K] {m m' : List (K × V)} {k k' : K}
    (hne : k' ≠ k) (h : aerase m k = some m') : alookup m' k' = alookup m k' := by
  induction m generalizing m' with
  | nil => simp [aerase] at h
  | cons e rest ih =>
    by_cases hk : e.1 = k
    · rw [aerase, if_pos hk] at h
      cases h
      rw [alookup, if_neg (by rw [hk]; exact fun hc => hne hc.symm)]
    · rw [aerase, if_neg hk] at h
      cases hr : aerase rest k with
      | none => simp [hr] at h
      | some r =>
        rw [hr] at h
        simp only [Option.map_some'] at h
        cases h
        by_cases hk' : e.1 = k' <;> simp [alookup, hk', ih hr]

theorem alookup_of_mem_nodup {K V : Type} [DecidableEq K] {m : List (K × V)} {k : K}
    {v : V} (hnd : (m.map Prod.fst).Nodup) (hm : (k, v) ∈ m) : alookup m k = some v := by
  induction m with
  | nil => cases hm
  | cons e rest ih =>
    simp only [List.map_cons, List.nodup_cons] at hnd
    rcases List.mem_cons.mp hm with hm | hm
    · rw [← hm, alookup, if_pos rfl]
    · have hne : e.1 ≠ k := by
        intro hc
        exact hnd.1 (hc ▸ (List.mem_map.mpr ⟨(k, v), hm, rfl⟩))
      rw [alookup, if_neg hne]
      exact ih hnd.2 hm

theorem mem_of_alookup {K V : Type} [DecidableEq K] {m : List (K × V)} {k : K} {v : V}
    (h : alookup m k = some v) : (k, v) ∈ m := by
  induction m with
  | nil => simp [alookup] at h
  | cons e rest ih =>
    by_cases hk : e.1 = k
    · rw [alookup, if_pos hk] at h
      cases h
      rw [← hk]
      exact List.mem_cons_self e rest
    · rw [alookup, if_neg hk] at h
      exact List.mem_cons_of_mem _ (ih h)

theorem removeEdge_spec {g : Graph} {u v : Vertex} (hwf : WFGraph g)
    (hpres : edgeData g u v ≠ none) :
    ∃ g', removeEdge g u v = .ok g' ∧ WFGraph g' ∧
      ∀ a b, edgeData g' a b = if a = u ∧ b = v then none else edgeData g a b := by
  rw [edgeData] at hpres
  cases hadj : alookup g u with
  | none => simp [hadj] at hpres
  | some adj =>
    rw [hadj] at hpres
    simp only [Option.some_bind] at hpres
    have hv : (alookup adj v).isSome := Option.ne_none_iff_isSome.mp hpres
    have he : (aerase adj v).isSome := by rw [aerase_isSome]; exact hv
    rcases Option.isSome_iff_exists.mp he with ⟨adj', hadj'⟩
    have hin : (adj.map Prod.fst).Nodup := hwf.2 (u, adj) (mem_of_alookup hadj)
    refine ⟨modifyA g u (fun _ => adj'), ?_, ⟨?_, ?_⟩, ?_⟩
    · simp [removeEdge, hadj, hadj']
    · rw [keys_modifyA]
      exact hwf.1
    · intro e hm
      rcases mem_modifyA hm with hm | ⟨adj0, _, rfl⟩
      · exact hwf.2 e hm
      · exact ((aerase_sublist hadj').map Prod.fst).nodup hin
    · intro a b
      by_cases hau : a = u
      · subst hau
        rw [edgeData, alookup_modifyA_self, hadj]
        by_cases hbv : b = v
        · subst hbv
          simp [alookup_aerase_self hin hadj', edgeData, hadj,
            Option.isSome_iff_exists.mp hv]
        · simp [alookup_aerase_ne hbv hadj', hbv, edgeData, hadj]
      · rw [edgeData, alookup_modifyA_ne g u a _ hau, if_neg (fun hc => hau hc.1)]
        rfl

theorem foldRemove_spec (lst : List StaleEntry) (g : Graph) (hwf : WFGraph g)
    (hpres : ∀ e ∈ lst, edgeData g e.1.1 e.1.2 ≠ none)
    (hnd : (lst.map (fun e => e.1)).Nodup) :
    ∃ g', lst.foldlM (fun gg e => removeEdge gg e.1.1 e.1.2) g = .ok g' ∧ WFGraph g' ∧
      ∀ a b, edgeData g' a b =
        if (a, b) ∈ lst.map (fun e => e.1) then none else edgeData g a b := by
  induction lst generalizing g with
  | nil => exact ⟨g, rfl, hwf, by simp⟩
  | cons e rest ih =>
    rcases removeEdge_spec hwf (hpres e (List.mem_cons_self e rest)) with
      ⟨g1, hok1, hwf1, hchar1⟩
    rw [List.map_cons] at hnd
    have hnd2 := List.nodup_cons.mp hnd
    have hpres1 : ∀ e' ∈ rest, edgeData g1 e'.1.1 e'.1.2 ≠ none := by
      intro e' he'
      rw [hchar1]
      have hne : ¬(e'.1.1 = e.1.1 ∧ e'.1.2 = e.1.2) := by
        intro hc
        exact hnd2.1 (List.mem_map.mpr ⟨e', he', Prod.ext_iff.mpr hc⟩)
      rw [if_neg hne]
      exact hpres e' (List.mem_cons_of_mem _ he')
    rcases ih g1 hwf1 hpres1 hnd2.2 with ⟨g', hok', hwf', hchar'⟩
    refine ⟨g', ?_, hwf', ?_⟩
    · rw [List.foldlM_cons, hok1]
      exact hok'
    · intro a b
      rw [hchar', hchar1, List.map_cons]
      by_cases h2 : (a, b) = e.1
      · have ha : a = e.1.1 := by rw [← h2]
        have hb : b = e.1.2 := by rw [← h2]
        by_cases h1 : (a, b) ∈ rest.map (fun e => e.1) <;>
          simp [h1, h2, ha, hb]
      · have hne2 : ¬(a = e.1.1 ∧ b = e.1.2) := by
          intro hc
          exact h2 (Prod.ext_iff.mpr hc)
        rw [if_neg hne2]
        by_cases h1 : (a, b) ∈ rest.map (fun e => e.1) <;>
          simp [h1, h2]

theorem mem_staleList {g : Graph} (hwf : WFGraph g) {t lim : ℚ} {u v : Vertex} {d : ℚ} :
    ((u, v), d) ∈ staleList g t lim ↔
      ∃ w time, edgeData g u v = some (w, time) ∧ t - time > lim ∧ d = t - time := by
  constructor
  · intro h
    rw [staleList, List.mem_flatMap] at h
    rcases h with ⟨ua, hua, hmem⟩
    rw [List.mem_map] at hmem
    rcases hmem with ⟨vw, hvw, heq⟩
    rw [List.mem_filter] at hvw
    simp only [Prod.mk.injEq] at heq
    refine ⟨vw.2.1, vw.2.2, ?_, by simpa using hvw.2, heq.2.symm⟩
    have hout : (u, ua.2) ∈ g := by
      rw [← heq.1.1]
      exact hua
    have hinn : (v, vw.2) ∈ ua.2 := by
      rw [← heq.1.2]
      exact hvw.1
    rw [edgeData, alookup_of_mem_nodup hwf.1 hout, Option.some_bind,
      alookup_of_mem_nodup (hwf.2 _ hout) hinn]
  · rintro ⟨w, time, hdata, hstale, rfl⟩
    rw [edgeData] at hdata
    cases hadj : alookup g u with
    | none => simp [hadj] at hdata
    | some adj =>
      rw [hadj, Option.some_bind] at hdata
      rw [staleList, List.mem_flatMap]
      refine ⟨(u, adj), mem_of_alookup hadj, ?_⟩
      rw [List.mem_map]
      refine ⟨(v, (w, time)), ?_, rfl⟩
      rw [List.mem_filter]
      exact ⟨mem_of_alookup hdata, by simpa using hstale⟩

theorem stalePairs_mem_keys {g : Graph} {t lim : ℚ} {p : Vertex × Vertex} {d : ℚ}
    (h : (p, d) ∈ staleList g t lim) : p.1 ∈ g.map Prod.fst := by
  obtain ⟨p1, p2⟩ := p
  rw [staleList, List.mem_flatMap] at h
  rcases h with ⟨ua, hua, hmem⟩
  rw [List.mem_map] at hmem
  rcases hmem with ⟨vw, _, heq⟩
  simp only [Prod.mk.injEq] at heq
  have h1 : ua.1 = p1 := heq.1.1
  rw [← h1]
  exact List.mem_map.mpr ⟨ua, hua, rfl⟩

theorem nodup_stalePairs {g : Graph} (hwf : WFGraph g) (t lim : ℚ) :
    ((staleList g t lim).map (fun e => e.1)).Nodup := by
  induction g with
  | nil => simp [staleList]
  | cons ua rest ih =>
    have hk0 := hwf.1
    rw [List.map_cons] at hk0
    have hkeys := List.nodup_cons.mp hk0
    have hwfr : WFGraph rest := ⟨hkeys.2, fun e he => hwf.2 e (List.mem_cons_of_mem _ he)⟩
    rw [staleList, List.flatMap_cons, List.map_append]
    refine List.Nodup.append ?_ (ih hwfr) ?_
    · rw [List.map_map]
      show (List.map (fun vw => ((ua.1, vw.1) : Vertex × Vertex))
        (ua.2.filter (fun vw => decide (t - vw.2.2 > lim)))).Nodup
      have hcomp : (fun (vw : Vertex × ℚ × ℚ) => ((ua.1, vw.1) : Vertex × Vertex)) =
          (fun v => ((ua.1, v) : Vertex × Vertex)) ∘ Prod.fst := rfl
      rw [hcomp, ← List.map_map]
      refine List.Nodup.map ?_ ?_
      · intro a b hab
        exact ((Prod.mk.injEq _ _ _ _).mp hab).2
      · have hsub : (ua.2.filter (fun vw => decide (t - vw.2.2 > lim))).Sublist ua.2 :=
          List.filter_sublist ua.2
        exact (hsub.map Prod.fst).nodup (hwf.2 ua (List.mem_cons_self ua rest))
    · intro p hp hq
      rw [List.map_map] at hp
      rcases List.mem_map.mp hp with ⟨vw, _, hvw⟩
      rcases List.mem_map.mp hq with ⟨e, he, hep⟩
      have hmem : p.1 ∈ rest.map Prod.fst := by
        have hpe : (p, e.2) ∈ staleList rest t lim := by
          rw [← hep]
          exact he
        exact stalePairs_mem_keys hpe
      have hfst : p.1 = ua.1 := by
        rw [← hvw]
        rfl
      rw [hfst] at hmem
      exact hkeys.1 hmem

theorem remove_stale_edges_spec {g : Graph} (hwf : WFGraph g) (t lim : ℚ) :
    ∃ g', remove_stale_edges g t lim =
        .ok (g', remove_duplicates (staleList g t lim)) ∧ WFGraph g' ∧
      ∀ u v, edgeData g' u v =
        match edgeData g u v with
        | none => none
        | some wt => if t - wt.2 > lim then none else some wt := by
  have hpres : ∀ e ∈ staleList g t lim, edgeData g e.1.1 e.1.2 ≠ none := by
    intro e he
    obtain ⟨⟨u, v⟩, d⟩ := e
    rcases (mem_staleList hwf).mp he with ⟨w, time, hdata, _, _⟩
    simp [hdata]
  rcases foldRemove_spec (staleList g t lim) g hwf hpres (nodup_stalePairs hwf t lim) with
    ⟨g', hok, hwf', hchar⟩
  refine ⟨g', ?_, hwf', ?_⟩
  · rw [remove_stale_edges]
    simp only [hok]
  · intro u v
    rw [hchar u v]
    cases hdata : edgeData g u v with
    | none =>
      by_cases hmem : (u, v) ∈ (staleList g t lim).map (fun e => e.1) <;>
        simp [hmem, hdata]
    | some wt =>
      by_cases hstale : t - wt.2 > lim
      · have hmem : (u, v) ∈ (staleList g t lim).map (fun e => e.1) :=
          List.mem_map.mpr ⟨((u, v), t - wt.2),
            (mem_staleList hwf).mpr ⟨wt.1, wt.2, hdata, hstale, rfl⟩, rfl⟩
        simp [hmem, hstale]
      · have hmem : (u, v) ∉ (staleList g t lim).map (fun e => e.1) := by
          intro hc
          rcases List.mem_map.mp hc with ⟨e, he, hep⟩
          obtain ⟨ep, ed⟩ := e
          rw [show ep = (u, v) from hep] at he
          rcases (mem_staleList hwf).mp he with ⟨w', time', hdata', hstale', _⟩
          rw [hdata] at hdata'
          have ht : time' = wt.2 := by
            have hwt := (Option.some_inj.mp hdata').symm
            rw [← hwt]
          rw [ht] at hstale'
          exact hstale hstale'
        simp [hmem, hstale]

/-- C9: `remove_stale_edges(t, maxAge)` succeeds on a well-formed graph and
removes a directed edge exactly when `t - insertedAt > maxAge` (strict): a
strictly stale edge is gone, an edge exactly at the boundary is retained
unchanged, and absent edges stay absent. -/
theorem C9_evict_strict_inequality (g : Graph) (t lim : ℚ) (hwf : WFGraph g) :
    ∃ g' out, remove_stale_edges g t lim = .ok (g', out) ∧
      (∀ u v w time, edgeData g u v = some (w, time) →
        edgeData g' u v = (if t - time > lim then none else some (w, time))) ∧
      (∀ u v w time, edgeData g u v = some (w, time) → t - time = lim →
        edgeData g' u v = some (w, time)) ∧
      (∀ u v, edgeData g u v = none → edgeData g' u v = none) := by
  rcases remove_stale_edges_spec hwf t lim with ⟨g', hok, _, hchar⟩
  have h1 : ∀ u v w time, edgeData g u v = some (w, time) →
      edgeData g' u v = (if t - time > lim then none else some (w, time)) := by
    intro u v w time hdata
    rw [hchar u v, hdata]
  refine ⟨g', _, hok, h1, ?_, ?_⟩
  · intro u v w time hdata hbd
    rw [h1 u v w time hdata, hbd, if_neg (lt_irrefl lim)]
  · intro u v hdata
    rw [hchar u v, hdata]

/-- Witness for C9: age 10 > 1 is evicted, age exactly 1 is retained. -/
theorem C9_evict_strict_inequality_witness :
    WFGraph (addEdge (addEdge [] "A" "B" 1 0) "A" "C" 1 9) ∧
      ∃ g' out, remove_stale_edges (addEdge (addEdge [] "A" "B" 1 0) "A" "C" 1 9) 10 1 =
          .ok (g', out) ∧
        (∀ u v w time,
          edgeData (addEdge (addEdge [] "A" "B" 1 0) "A" "C" 1 9) u v = some (w, time) →
            edgeData g' u v = (if 10 - time > 1 then none else some (w, time))) ∧
        (∀ u v w time,
          edgeData (addEdge (addEdge [] "A" "B" 1 0) "A" "C" 1 9) u v = some (w, time) →
            10 - time = 1 → edgeData g' u v = some (w, time)) ∧
        (∀ u v, edgeData (addEdge (addEdge [] "A" "B" 1 0) "A" "C" 1 9) u v = none →
            edgeData g' u v = none) :=
  ⟨by decide,
   C9_evict_strict_inequality (addEdge (addEdge [] "A" "B" 1 0) "A" "C" 1 9) 10 1 (by decide)⟩

/-- Counterexample to C5: both directed edges of the unordered pair
`{A, B}` qualify for removal, but their ages differ (10 and 9), so
`remove_duplicates` does not collapse them and the report carries two
entries for the same unordered pair. -/
theorem C5_counterexample_two_entries_same_pair :
    remove_stale_edges (addEdge (addEdge [] "A" "B" 1 0) "B" "A" 1 1) 10 1 =
      .ok ([("A", []), ("B", [])], [(("A", "B"), 10), (("B", "A"), 9)]) := by
  simp [remove_stale_edges, staleList, addEdge, alookup, aupdate, modifyA, removeEdge, aerase,
    remove_duplicates, removeDupGo, eraseFirst, revEntry, Bind.bind, Except.bind,
    Pure.pure, Except.pure,
    show (10 : ℚ) - 0 = 10 from by norm_num, show (10 : ℚ) - 1 = 9 from by norm_num,
    show (10 : ℚ) > 1 from by norm_num, show (9 : ℚ) > 1 from by norm_num]

/-- C5 (amended): when the qualifying edges are exactly the two directions
of one pair with equal recorded age, the report is collapsed to the single
(second-scanned) entry while both directed edges are physically removed. -/
theorem C5_collapse_equal_age_pair (g : Graph) (t lim : ℚ) (u v : Vertex) (d : ℚ)
    (hwf : WFGraph g)
    (hsl : staleList g t lim = [((u, v), d), ((v, u), d)]) :
    ∃ g', remove_stale_edges g t lim = .ok (g', [((v, u), d)]) ∧
      edgeData g' u v = none ∧ edgeData g' v u = none := by
  rcases remove_stale_edges_spec hwf t lim with ⟨g', hok, _, hchar⟩
  rw [hsl] at hok
  have hdup : remove_duplicates [((u, v), d), ((v, u), d)] = [((v, u), d)] := by
    simp [remove_duplicates, removeDupGo, eraseFirst, revEntry]
  rw [hdup] at hok
  have hgone : ∀ a b : Vertex, ((a, b), d) ∈ staleList g t lim → edgeData g' a b = none := by
    intro a b hmem
    rcases (mem_staleList hwf).mp hmem with ⟨w, time, hdata, hstale, _⟩
    rw [hchar a b, hdata]
    simp [hstale]
  refine ⟨g', hok, ?_, ?_⟩
  · exact hgone u v (by rw [hsl]; exact List.mem_cons_self _ _)
  · exact hgone v u (by rw [hsl]; exact List.mem_cons_of_mem _ (List.mem_cons_self _ _))

/-- Witness for the amended C5 at a concrete input. -/
theorem C5_collapse_equal_age_pair_witness :
    (WFGraph (addEdge (addEdge [] "A" "B" 1 0) "B" "A" 2 0) ∧
      staleList (addEdge (addEdge [] "A" "B" 1 0) "B" "A" 2 0) 10 1 =
        [(("A", "B"), 10), (("B", "A"), 10)]) ∧
    ∃ g', remove_stale_edges (addEdge (addEdge [] "A" "B" 1 0) "B" "A" 2 0) 10 1 =
        .ok (g', [(("B", "A"), 10)]) ∧
      edgeData g' "A" "B" = none ∧ edgeData g' "B" "A" = none :=
  ⟨⟨by decide, by
      simp [staleList, addEdge, alookup, aupdate, modifyA,
        show (10 : ℚ) - 0 = 10 from by norm_num, show (10 : ℚ) > 1 from by norm_num]⟩,
   C5_collapse_equal_age_pair (addEdge (addEdge [] "A" "B" 1 0) "B" "A" 2 0) 10 1
     "A" "B" 10 (by decide) (by
      simp [staleList, addEdge, alookup, aupdate, modifyA,
        show (10 : ℚ) - 0 = 10 from by norm_num, show (10 : ℚ) > 1 from by norm_num])⟩

/-! ### Staleness registry (C6) -/

theorem staleQuotesFold_no_stale {now : ℚ} {mts : List (MarketKey × ℚ)} (g : Graph)
    (h : ∀ e ∈ mts, ¬(now - e.2 > IN_FORCE_TIME)) :
    staleQuotesFold now mts g = .ok (g, []) := by
  induction mts with
  | nil => rfl
  | cons e rest ih =>
    rw [staleQuotesFold, if_neg (h e (List.mem_cons_self e rest))]
    exact ih (fun e' he' => h e' (List.mem_cons_of_mem _ he'))

theorem exbind_ok {α β : Type} {x : Except Unit α} {f : α → Except Unit β} {b : β}
    (h : x.bind f = .ok b) : ∃ a, x = .ok a ∧ f a = .ok b := by
  cases x with
  | error u => exact Except.noConfusion h
  | ok a => exact ⟨a, rfl, h⟩

theorem exmap_ok {α β : Type} {x : Except Unit α} {f : α → β} {b : β}
    (h : x.map f = .ok b) : ∃ a, x = .ok a ∧ f a = b := by
  cases x with
  | error u => exact Except.noConfusion h
  | ok a =>
    refine ⟨a, rfl, ?_⟩
    exact Except.ok.inj h

theorem staleQuotesFold_cons (now : ℚ) (e : MarketKey × ℚ) (rest : List (MarketKey × ℚ))
    (g : Graph) :
    staleQuotesFold now (e :: rest) g =
      if now - e.2 > IN_FORCE_TIME then
        (removeEdge g e.1.1 e.1.2).bind (fun g1 =>
          (removeEdge g1 e.1.2 e.1.1).bind (fun g2 =>
            (staleQuotesFold now rest g2).map (fun p => (p.1, e.1 :: p.2))))
      else staleQuotesFold now rest g := by
  rw [staleQuotesFold]
  split
  · cases removeEdge g e.1.1 e.1.2 with
    | error u => rfl
    | ok g1 =>
      dsimp only [Except.bind]
      cases removeEdge g1 e.1.2 e.1.1 with
      | error u => rfl
      | ok g2 =>
        dsimp only [Except.bind]
        cases hs : staleQuotesFold now rest g2 with
        | error u => rfl
        | ok p =>
          obtain ⟨a, b⟩ := p
          rfl
  · rfl

theorem staleQuotesFold_removes_stale {now : ℚ} {mts : List (MarketKey × ℚ)}
    {g g' : Graph} {ks : List MarketKey}
    (h : staleQuotesFold now mts g = .ok (g', ks)) :
    ∀ e ∈ mts, now - e.2 > IN_FORCE_TIME → e.1 ∈ ks := by
  induction mts generalizing g ks with
  | nil => intro e he; cases he
  | cons e0 rest ih =>
    intro e he hstale
    rw [staleQuotesFold_cons] at h
    rcases List.mem_cons.mp he with he | he
    · subst he
      rw [if_pos hstale] at h
      rcases exbind_ok h with ⟨g1, _, h⟩
      rcases exbind_ok h with ⟨g2, _, h⟩
      rcases exmap_ok h with ⟨p, _, h⟩
      have hk : ks = e.1 :: p.2 := ((Prod.mk.injEq _ _ _ _).mp h).2.symm
      rw [hk]
      exact List.mem_cons_self _ _
    · by_cases hstale0 : now - e0.2 > IN_FORCE_TIME
      · rw [if_pos hstale0] at h
        rcases exbind_ok h with ⟨g1, _, h⟩
        rcases exbind_ok h with ⟨g2, hg2, h⟩
        rcases exmap_ok h with ⟨p, hp, h⟩
        have hk : ks = e0.1 :: p.2 := ((Prod.mk.injEq _ _ _ _).mp h).2.symm
        have hg : p.1 = g' := ((Prod.mk.injEq _ _ _ _).mp h).1
        have hp2 : staleQuotesFold now rest g2 = .ok (g', p.2) := by
          rw [← hg]
          exact hp
        rw [hk]
        exact List.mem_cons_of_mem _ (ih hp2 e he hstale)
      · rw [if_neg hstale0] at h
        exact ih h e he hstale

theorem delKeys_spec {K V : Type} [DecidableEq K] {mts mt' : List (K × V)} {ks : List K}
    (hnd : (mts.map Prod.fst).Nodup) (h : delKeys mts ks = some mt') :
    (∀ e ∈ mt', e ∈ mts ∧ e.1 ∉ ks) ∧ (mt'.map Prod.fst).Nodup := by
  induction ks generalizing mts with
  | nil =>
    cases h
    exact ⟨fun e he => ⟨he, List.not_mem_nil e.1⟩, hnd⟩
  | cons k ks ih =>
    rw [delKeys] at h
    cases h1 : aerase mts k with
    | none => rw [h1] at h; cases h
    | some m1 =>
      rw [h1] at h
      simp only [Option.some_bind] at h
      have hsub := aerase_sublist h1
      have hnd1 : (m1.map Prod.fst).Nodup := (hsub.map Prod.fst).nodup hnd
      have hnok : k ∉ m1.map Prod.fst :=
        (alookup_eq_none_iff m1 k).mp (alookup_aerase_self hnd h1)
      rcases ih hnd1 h with ⟨hmem, hnd'⟩
      refine ⟨fun e he => ?_, hnd'⟩
      rcases hmem e he with ⟨he1, he2⟩
      refine ⟨hsub.mem he1, ?_⟩
      intro hc
      rcases List.mem_cons.mp hc with hc | hc
      · exact hnok (hc ▸ List.mem_map.mpr ⟨e, he1, rfl⟩)
      · exact he2 hc

/-- C6: a successful staleness eviction is exhausting — running
`remove_stale_quotes` again at the same time on the resulting state reports
nothing, removes nothing, and does not fail (the evicted pairs are gone from
the registry, so no double removal is attempted). -/
theorem C6_second_eviction_noop (s s' : SubState) (now : ℚ) (removed : List MarketKey)
    (hnd : (s.marketTimes.map Prod.fst).Nodup)
    (hok : remove_stale_quotes now s = .ok (s', removed)) :
    remove_stale_quotes now s' = .ok (s', []) := by
  rw [remove_stale_quotes] at hok
  cases h1 : staleQuotesFold now s.marketTimes s.graph with
  | error u =>
    rw [h1] at hok
    exact Except.noConfusion hok
  | ok p =>
    obtain ⟨pg, pk⟩ := p
    rw [h1] at hok
    dsimp only at hok
    cases h2 : delKeys s.marketTimes pk with
    | none =>
      rw [h2] at hok
      exact Except.noConfusion hok
    | some mt' =>
      rw [h2] at hok
      dsimp only at hok
      have hpair := Except.ok.inj hok
      have hs' : s' = { graph := pg, marketTimes := mt' } :=
        (((Prod.mk.injEq _ _ _ _).mp hpair).1).symm
      subst hs'
      rcases delKeys_spec hnd h2 with ⟨hmem, _⟩
      have hns : ∀ e ∈ mt', ¬(now - e.2 > IN_FORCE_TIME) := by
        intro e he hstale
        rcases hmem e he with ⟨he1, he2⟩
        exact he2 (staleQuotesFold_removes_stale h1 e he1 hstale)
      rw [remove_stale_quotes]
      dsimp only
      rw [staleQuotesFold_no_stale pg hns]
      rfl

/-- Witness for C6: a stale quote for `(A, B)` is evicted at `now = 10`;
the second call at the same time is a no-op. -/
theorem C6_second_eviction_noop_witness :
    ((([((("A", "B") : MarketKey), (0 : ℚ))].map Prod.fst).Nodup) ∧
      remove_stale_quotes 10
          ⟨addEdge (addEdge [] "A" "B" 1 0) "B" "A" 1 0, [(("A", "B"), 0)]⟩ =
        .ok (⟨[("A", []), ("B", [])], []⟩, [("A", "B")])) ∧
    remove_stale_quotes 10 ⟨[("A", []), ("B", [])], []⟩ =
      .ok (⟨[("A", []), ("B", [])], []⟩, []) := by
  have h1 : remove_stale_quotes 10
      ⟨addEdge (addEdge [] "A" "B" 1 0) "B" "A" 1 0, [(("A", "B"), 0)]⟩ =
      .ok (⟨[("A", []), ("B", [])], []⟩, [("A", "B")]) := by
    simp [remove_stale_quotes, staleQuotesFold, removeEdge, aerase, addEdge, alookup,
      aupdate, modifyA, delKeys, IN_FORCE_TIME,
      show (10 : ℚ) - 0 > 3 / 2 from by norm_num,
      show (3 : ℚ) / 2 < 10 from by norm_num]
  exact ⟨⟨by decide, h1⟩,
    C6_second_eviction_noop _ _ 10 [("A", "B")] (by decide) h1⟩

/-! ### Quote processing (C7, C8) -/

/-- C8: a quote in a batch is applied exactly when its embedded timestamp
`isclose`-matches the batch receive time: on a match the registry entry for
the ordered pair is set and both directed edges are inserted; on a mismatch
the whole state (graph and registry) is left unchanged, so a batch acts like
its `isclose`-filtered sub-batch. -/
theorem C8_out_of_sequence_ignored (log10 : ℚ → ℚ) (startTime : ℚ) (s : SubState)
    (q : Quote) (quotes : List Quote) :
    (isclose startTime q.timestamp = false → applyQuote log10 startTime s q = s) ∧
    (isclose startTime q.timestamp = true →
      applyQuote log10 startTime s q =
        { marketTimes := aupdate s.marketTimes (q.cross1, q.cross2) q.timestamp,
          graph := addEdge
            (addEdge s.graph q.cross1 q.cross2 (-1 * log10 q.price) q.timestamp)
            q.cross2 q.cross1 (-1 * (-1 * log10 q.price)) q.timestamp }) ∧
    processQuotes log10 startTime s quotes =
      processQuotes log10 startTime s
        (quotes.filter (fun q' => isclose startTime q'.timestamp)) := by
  refine ⟨?_, ?_, ?_⟩
  · intro h
    simp [applyQuote, h]
  · intro h
    simp [applyQuote, h, add_exchange_rates]
  · induction quotes generalizing s with
    | nil => rfl
    | cons q' rest ih =>
      simp only [processQuotes, List.foldl_cons, List.filter_cons]
      by_cases h : isclose startTime q'.timestamp
      · rw [if_pos (by simpa using h)]
        simp only [processQuotes] at ih
        exact ih (applyQuote log10 startTime s q')
      · rw [if_neg (by simpa using h)]
        have hq : applyQuote log10 startTime s q' = s := by
          simp [applyQuote, h]
        rw [hq]
        simp only [processQuotes] at ih
        exact ih s

/-- Witness for C8: an out-of-sequence quote leaves the state untouched; a
matching quote inserts both edges and the registry entry. -/
theorem C8_out_of_sequence_ignored_witness :
    (isclose 0 (Quote.mk 100 "A" "B" 2).timestamp = false ∧
      isclose 5 (Quote.mk 5 "A" "B" 2).timestamp = true) ∧
    applyQuote (fun _ => 0) 0 ⟨[], []⟩ (Quote.mk 100 "A" "B" 2) = ⟨[], []⟩ ∧
    applyQuote (fun _ => 0) 5 ⟨[], []⟩ (Quote.mk 5 "A" "B" 2) =
      { marketTimes := aupdate [] ("A", "B") 5,
        graph := addEdge (addEdge [] "A" "B" (-1 * (fun (_ : ℚ) => (0 : ℚ)) 2) 5)
          "B" "A" (-1 * (-1 * (fun (_ : ℚ) => (0 : ℚ)) 2)) 5 } :=
  ⟨⟨by norm_num [isclose], by norm_num [isclose]⟩,
   (C8_out_of_sequence_ignored (fun _ => 0) 0 ⟨[], []⟩ (Quote.mk 100 "A" "B" 2) []).1
     (by norm_num [isclose]),
   ((C8_out_of_sequence_ignored (fun _ => 0) 5 ⟨[], []⟩ (Quote.mk 5 "A" "B" 2) []).2.1
     (by norm_num [isclose]))⟩

/-- Counterexample to C7: quotes for the two orientations of one market are
registered under two distinct ordered-pair keys, so the registry holds two
entries covering the same unordered pair. -/
theorem C7_counterexample_two_orientations :
    (processQuotes (fun _ => 0) 5 ⟨[], []⟩
        [Quote.mk 5 "A" "B" 2, Quote.mk 5 "B" "A" 2]).marketTimes =
      [(("A", "B"), 5), (("B", "A"), 5)] := by
  have hc : isclose 5 5 = true := by norm_num [isclose]
  simp [processQuotes, applyQuote, hc, add_exchange_rates, addEdge, aupdate, alookup, modifyA]

/-- C7 (amended): the `market_times` registry holds at most one entry per
ordered currency pair as it appears in the quote (`dict` key uniqueness is
preserved by every applied quote); the two orientations of a market are two
distinct keys. -/
theorem C7_registry_unique_ordered_keys (log10 : ℚ → ℚ) (startTime : ℚ) (s : SubState)
    (quotes : List Quote) (hnd : (s.marketTimes.map Prod.fst).Nodup) :
    (((processQuotes log10 startTime s quotes).marketTimes).map Prod.fst).Nodup := by
  induction quotes generalizing s with
  | nil => exact hnd
  | cons q rest ih =>
    simp only [processQuotes, List.foldl_cons]
    simp only [processQuotes] at ih
    apply ih
    by_cases h : isclose startTime q.timestamp
    · simp only [applyQuote, h, if_true]
      exact nodupKeys_aupdate _ _ _ hnd
    · simp only [applyQuote, h]
      simpa [h] using hnd

/-- Witness for the amended C7 at the counterexample input. -/
theorem C7_registry_unique_ordered_keys_witness :
    ((([] : List (MarketKey × ℚ)).map Prod.fst).Nodup) ∧
      (((processQuotes (fun _ => 0) 5 ⟨[], []⟩
          [Quote.mk 5 "A" "B" 2, Quote.mk 5 "B" "A" 2]).marketTimes).map Prod.fst).Nodup :=
  ⟨by decide,
   C7_registry_unique_ordered_keys (fun _ => 0) 5 ⟨[], []⟩
     [Quote.mk 5 "A" "B" 2, Quote.mk 5 "B" "A" 2] (by decide)⟩

/-! ### Arbitrage reconstruction theorems (C1, C2) -/

theorem popUntilL_sublist {g : Graph} {start : Vertex} :
    ∀ {revList : List (Option Vertex)} {currency : Option Vertex}
      {popped : List (Option Vertex)},
      popUntilL g start revList currency = some popped → popped.Sublist revList := by
  intro revList
  induction revList with
  | nil =>
    intro currency popped h
    simp only [popUntilL] at h
    split at h
    · cases h
      exact List.Sublist.refl _
    · exact Option.noConfusion h
  | cons x rest ih =>
    intro currency popped h
    simp only [popUntilL] at h
    split at h
    · cases h
      exact List.Sublist.refl _
    · cases rest with
      | nil => exact Option.noConfusion h
      | cons c t => exact List.Sublist.cons x (ih h)

theorem buildWalk_ok_closed {g : Graph} {pred : List (Vertex × Option Vertex)}
    {start : Vertex} :
    ∀ (fuel : Nat) {currency : Option Vertex} {rest l : List (Option Vertex)},
      (some start ∈ currency :: rest → currency = some start ∧ some start ∉ rest) →
      buildWalk g pred start fuel currency (currency :: rest) = .ok l →
      l.head? = some (some start) ∧ some start ∉ l.tail := by
  intro fuel
  induction fuel with
  | zero =>
    intro currency rest l _ h
    exact BResult.noConfusion h
  | succ fuel ih =>
    intro currency rest l hinv h
    rw [buildWalk] at h
    by_cases hcur : currency = some start
    · rw [if_pos hcur] at h
      have hl := BResult.ok.inj h
      subst hl
      refine ⟨by rw [hcur]; rfl, ?_⟩
      have hmem : some start ∈ currency :: rest := by
        rw [hcur]
        exact List.mem_cons_self _ _
      simpa using (hinv hmem).2
    · rw [if_neg hcur] at h
      cases hlk : lookupPred pred currency with
      | none =>
        rw [hlk] at h
        exact BResult.noConfusion h
      | some p =>
        rw [hlk] at h
        dsimp only at h
        by_cases hmem : p ∈ currency :: rest
        · rw [if_pos hmem] at h
          cases hpop : popUntil g start currency (currency :: rest) with
          | none =>
            rw [hpop] at h
            exact BResult.noConfusion h
          | some popped =>
            rw [hpop] at h
            dsimp only at h
            have hl := BResult.ok.inj h
            subst hl
            refine ⟨rfl, ?_⟩
            intro hc
            have hsub : popped.Sublist (currency :: rest) := popUntilL_sublist hpop
            have hs : some start ∈ currency :: rest := hsub.mem (by simpa using hc)
            exact hcur (hinv hs).1
        · rw [if_neg hmem] at h
          refine ih ?_ h
          intro hs
          rcases List.mem_cons.mp hs with hs | hs
          · refine ⟨hs.symm, ?_⟩
            intro hc
            exact hmem (hs ▸ hc)
          · exact absurd (hinv hs).1 hcur

/-- C1 (amended): whenever `build_arbitrage_sequence` returns a list at all
(rather than raising), the list is nonempty, its first element is the start
currency, and the start currency occurs nowhere else in it — a closed walk
through `start`.  Termination with a result and the existence of graph
edges for every consecutive pair are not guaranteed for arbitrary
predecessor maps (see the counterexample). -/
theorem C1_result_closed_through_start (fuel : Nat) (g : Graph)
    (pred : List (Vertex × Option Vertex)) (start : Vertex) (l : List (Option Vertex))
    (h : build_arbitrage_sequence fuel g pred start = .ok l) :
    l ≠ [] ∧ l.head? = some (some start) ∧ some start ∉ l.tail := by
  rw [build_arbitrage_sequence] at h
  cases hlk : alookup pred start with
  | none =>
    rw [hlk] at h
    exact BResult.noConfusion h
  | some c =>
    rw [hlk] at h
    dsimp only at h
    have hmain := buildWalk_ok_closed fuel ?_ h
    · refine ⟨?_, hmain⟩
      intro hnil
      rw [hnil] at hmain
      exact Option.noConfusion hmain.1
    · intro hs
      rcases List.mem_cons.mp hs with hs | hs
      · exact ⟨hs.symm, List.not_mem_nil _⟩
      · cases hs

/-- Witness for the amended C1: the clean 3-cycle predecessor map produces
a closed list through the start currency. -/
theorem C1_result_closed_through_start_witness :
    build_arbitrage_sequence 10 []
        [("A", some "B"), ("B", some "C"), ("C", some "A")] "A" =
      .ok [some "A", some "C", some "B"] ∧
    ([some "A", some "C", some "B"] ≠ ([] : List (Option Vertex)) ∧
      [some "A", some "C", some "B"].head? = some (some "A") ∧
      some "A" ∉ [some "A", some "C", some "B"].tail) :=
  ⟨by decide,
   C1_result_closed_through_start 10 []
     [("A", some "B"), ("B", some "C"), ("C", some "A")] "A"
     [some "A", some "C", some "B"] (by decide)⟩

/-- Counterexample to C1: with `pred[A] = B, pred[B] = B` over the empty
graph the fallback pops the accumulated list empty and the function raises
`IndexError` instead of terminating with a sequence; and with the clean
3-cycle predecessor map over the empty graph it returns `[A, C, B]` although
no consecutive pair (e.g. `A → C`) has an edge in the graph. -/
theorem C1_counterexample_crash_and_missing_edges :
    build_arbitrage_sequence 10 [] [("A", some "B"), ("B", some "B")] "A" = .crash ∧
    (build_arbitrage_sequence 10 []
        [("A", some "B"), ("B", some "C"), ("C", some "A")] "A" =
      .ok [some "A", some "C", some "B"] ∧
      hasEdge [] "A" "C" = false) := by
  decide

/-- C2 (amended): on `pred[A] = B, pred[B] = C, pred[C] = A` with start `A`,
`build_arbitrage_sequence` returns exactly `[A, C, B]`: the start currency
is an explicit first element, and the represented trade order is
`A → C → B → A` (each step following the reversed predecessor edges). -/
theorem C2_three_cycle_returns_full_list :
    build_arbitrage_sequence 10 []
        [("A", some "B"), ("B", some "C"), ("C", some "A")] "A" =
      .ok [some "A", some "C", some "B"] := by
  decide

/-- Counterexample to C2: the returned list is `[A, C, B]`, not `[B, C]`,
and the start currency is one of its elements. -/
theorem C2_counterexample_not_B_C :
    build_arbitrage_sequence 10 []
        [("A", some "B"), ("B", some "C"), ("C", some "A")] "A" ≠
      .ok [some "B", some "C"] ∧
    build_arbitrage_sequence 10 []
        [("A", some "B"), ("B", some "C"), ("C", some "A")] "A" =
      .ok [some "A", some "C", some "B"] ∧
    some "A" ∈ [some "A", some "C", some "B"] := by
  decide

end Forex
